import Mathlib

/-!
Verification of the singly-linked-list algorithm toolkit in
`experiments/codesignal/linked_list/`.

Two granularities of shallow embedding are used.

Value-level: an acyclic chain is represented by its list of values (a node
reference into an acyclic chain is the suffix of values starting at that
node).  Algorithms whose claims concern only the produced value sequence
(reverse, middle, palindrome, partition, k-group reversal, dedup,
insertion sort) are embedded as pure functions over lists, mirroring the
Python loop structure statement by statement.

Pointer-level: claims about the pointer graph itself (dangling references
of removed nodes, non-mutation, cycle detection on cyclic chains) use an
explicit heap: node identities are naturals, the heap maps each identity
to its stored value and its successor pointer (`none` models Python
`None`).  Mutating statements thread an updated heap; loops are embedded
with a fuel parameter, `none` standing for non-termination within fuel
(or an uncaught exception, noted where it matters).
-/

namespace LL

/-! ## Value-level embedding -/

/-- `reverseList` from `palindrome.py` (the copy in `build_linked_list.py`
is identical): the loop pops the front of the remaining input and pushes
it on the accumulator `newList`. -/
def reverseListAux : List Int → List Int → List Int
  | [], newList => newList
  | n :: rest, newList => reverseListAux rest (n :: newList)

def reverseList (head : List Int) : List Int :=
  reverseListAux head []

/-- `middleNode2` from `middle_list.py`: `head` advances one step while
`tmp` advances two; stops when `tmp` or `tmp.next` is absent and returns
the node `head` rests on (its value here; `none` for the empty chain). -/
def middleNode2Aux : List Int → List Int → Option Int
  | head, _ :: _ :: rest => middleNode2Aux head.tail rest
  | head, _ => head.head?

def middleNode2 (head : List Int) : Option Int :=
  middleNode2Aux head head

/-- `partition2` from `partition_list.py`: one pass appends each node to
the `left` chain (value < pivot) or the `right` chain (value ≥ pivot),
then concatenates left ++ right.  The accumulators mirror the two dummy
heads with their running tails `l` and `r`. -/
def partition2Aux (value : Int) : List Int → List Int → List Int → List Int
  | [], left, right => left ++ right
  | x :: rest, left, right =>
    if x < value then partition2Aux value rest (left ++ [x]) right
    else partition2Aux value rest left (right ++ [x])

def partition2 (head : List Int) (value : Int) : List Int :=
  partition2Aux value head [] []

/-- `reverseListKAtATime` from `build_linked_list.py`.  `findTail` walks
`k - 1` steps from the current head and reports success iff a full group
of `k` nodes remains (for `k ≤ 1` it stops at the current head, so the
effective group size is `max k 1`).  On success the group is reversed by
`reverseHeadToTail` — whose last relink points the group's old head at
the node after the group — and `prevTail.next` splices the reversed group
after the previously processed part; on failure the remainder is left
untouched.  The recursion below is exactly that loop on value lists. -/
def reverseListKAtATime (k : Nat) (head : List Int) : List Int :=
  if h : head ≠ [] ∧ k ≤ head.length then
    (head.take (max k 1)).reverse ++ reverseListKAtATime k (head.drop (max k 1))
  else head
termination_by head.length
decreasing_by
  simp only [List.length_drop]
  have hne : head.length ≠ 0 := by
    intro hlen
    exact h.1 (List.eq_nil_of_length_eq_zero hlen)
  omega

/-- Inner while loop of `removeDuplicates2` (`remove_duplicates.py`):
from the node after `cur`, skip every consecutive node carrying `cur`'s
value (`while n.next and n.next.value == cur.value: n = n.next`); the
subsequent relink `cur.next = n.next` makes the chain after `cur` be
exactly the remainder returned here. -/
def skipEqRun (x : Int) : List Int → List Int
  | [] => []
  | y :: ys => if y = x then skipEqRun x ys else y :: ys

theorem skipEqRun_length_le (x : Int) (l : List Int) :
    (skipEqRun x l).length ≤ l.length := by
  induction l with
  | nil => simp [skipEqRun]
  | cons y ys ih =>
    by_cases h : y = x
    · simp only [skipEqRun, if_pos h]
      exact Nat.le_succ_of_le ih
    · simp [skipEqRun, if_neg h]

/-- `removeDuplicates2` from `remove_duplicates.py`, at value level: the
outer loop keeps `cur`, drops the consecutive run of equal values after
it, and moves on to the first differing value. -/
def removeDuplicates2 : List Int → List Int
  | [] => []
  | x :: xs => x :: removeDuplicates2 (skipEqRun x xs)
termination_by l => l.length
decreasing_by
  simp only [List.length_cons]
  exact Nat.lt_succ_of_le (skipEqRun_length_le _ _)

/-- `insertNode` from `insertion_sort.py`.  Nodes are (value, tag) pairs
so that distinct nodes holding equal values stay distinguishable; the
source compares values only (`n.value < node.value`).  The walk stops at
the first node whose value is not < the inserted value, and the new node
is linked in before it (the `not head` and `not prev` branches of the
source produce the same chains). -/
def insertNode : List (Int × Nat) → Int × Nat → List (Int × Nat)
  | [], node => [node]
  | n :: rest, node =>
    if n.1 < node.1 then n :: insertNode rest node else node :: n :: rest

/-- `insertionSort` from `insertion_sort.py`: repeatedly unlink the input
front node and insert it into the sorted output chain `newList`. -/
def insertionSortAux : List (Int × Nat) → List (Int × Nat) → List (Int × Nat)
  | [], newList => newList
  | x :: rest, newList => insertionSortAux rest (insertNode newList x)

def insertionSort (head : List (Int × Nat)) : List (Int × Nat) :=
  insertionSortAux head []

/-- `listLength` from `palindrome.py`. -/
def listLength : List Int → Nat
  | [] => 0
  | _ :: rest => listLength rest + 1

/-- `getMid` from `palindrome.py`: the same two-pointer walk as
`middleNode2`, but here the returned node reference is modelled as the
suffix of the chain starting at that node. -/
def getMidAux : List Int → List Int → List Int
  | n1, _ :: _ :: rest => getMidAux n1.tail rest
  | n1, _ => n1

def getMid (head : List Int) : List Int :=
  getMidAux head head

/-- Comparison loop of `isPalidrome`: walk both chains in lockstep while
both are present, reporting false on the first value mismatch. -/
def palCompare : List Int → List Int → Bool
  | x :: xs, y :: ys => x == y && palCompare xs ys
  | _, _ => true

/-- `isPalidrome` from `palindrome.py`: find the middle, skip it when the
length is odd, reverse the back half in place, then compare front and
reversed-back chains value by value.  The in-place reversal leaves only
the first ⌈n/2⌉ + 1 nodes reachable from `head`, but the comparison loop
stops at the end of the shorter `newList` chain (⌊n/2⌋ nodes), so
comparing against the intact original front chain is observationally the
same; the value-level model uses the original chain for the `head` side. -/
def isPalidrome (head : List Int) : Bool :=
  let midElement := getMid head
  let midElement2 := if listLength head % 2 = 1 then midElement.tail else midElement
  let newList := reverseList midElement2
  palCompare head newList

/-! ## Pointer-level embedding

Node identities are naturals; a `Heap` stores each node's `value` field
and `next` field (`none` = Python `None`).  A Python node reference is an
`Option Nat`.  Functions that assign to a `next` field thread an updated
heap; while loops take a fuel argument, with `none` meaning the loop did
not finish within fuel (or, where noted, an uncaught exception). -/

structure Heap where
  val : Nat → Int
  nxt : Nat → Option Nat

/-- The effect of a Python assignment `p.next = o` on the heap. -/
def setNext (h : Heap) (p : Nat) (o : Option Nat) : Heap :=
  { h with nxt := fun j => if j = p then o else h.nxt j }

/-- `convertArrayToList` from `utils.py`: allocate one node per value
(identities 0, 1, 2, …) linked in input order; returns the heap and the
head reference. -/
def convertArrayToList (array : List Int) : Heap × Option Nat :=
  (⟨fun j => array.getD j 0,
    fun j => if j + 1 < array.length then some (j + 1) else none⟩,
   if array.length = 0 then none else some 0)

/-- Values along the chain from a reference, reading at most `fuel`
nodes (enough fuel on an acyclic chain reads it all). -/
def chainVals (h : Heap) : Nat → Option Nat → List Int
  | 0, _ => []
  | _ + 1, none => []
  | fuel + 1, some nd => h.val nd :: chainVals h fuel (h.nxt nd)

/-- First loop of `removeNthFromEnd2` (`remove_nth_node.py`): `node`
scans the whole chain with counter `i`; once `i > n`, `prev` and `nth`
start trailing, so at loop exit `nth` is the node to remove and `prev`
its predecessor.  `none` = fuel ran out, or `nth.next` was read from an
absent `nth` (an AttributeError in Python). -/
def rnScan (h : Heap) :
    Nat → Option Nat → Nat → Nat → Option Nat → Option Nat →
    Option (Option Nat × Option Nat)
  | 0, _, _, _, _, _ => none
  | _ + 1, none, _, _, prev, nth => some (prev, nth)
  | fuel + 1, some node, i, n, prev, nth =>
    if n < i then
      match nth with
      | none => none
      | some t => rnScan h fuel (h.nxt node) (i + 1) n nth (h.nxt t)
    else rnScan h fuel (h.nxt node) (i + 1) n prev nth

/-- `removeNthFromEnd2` from `remove_nth_node.py`: scan to locate the
target and its predecessor, then either return `head.next` (target is the
head), set `prev.next = None` (target absent — happens for `n = 0`), or
splice with `prev.next = nth.next`. -/
def removeNthFromEnd2 (h : Heap) (head : Option Nat) (n fuel : Nat) :
    Option (Heap × Option Nat) :=
  match rnScan h fuel head 1 n none head with
  | none => none
  | some (none, none) => none
  | some (none, some t) => some (h, h.nxt t)
  | some (some p, none) => some (setNext h p none, head)
  | some (some p, some t) => some (setNext h p (h.nxt t), head)

/-- Inner while loop of `removeDuplicates2` at pointer level: advance `n`
over the consecutive nodes after it whose value equals `cur`'s value. -/
def rdRun (h : Heap) (curVal : Int) : Nat → Nat → Option Nat
  | 0, _ => none
  | fuel + 1, nd =>
    match h.nxt nd with
    | none => some nd
    | some nx => if h.val nx = curVal then rdRun h curVal fuel nx else some nd

/-- Outer while loop of `removeDuplicates2` at pointer level: when the
run after `cur` is non-trivial, assign `cur.next = n.next` and stay at
`cur`; otherwise advance `cur`. -/
def rdOuter : Heap → Nat → Option Nat → Option Heap
  | h, 0, _ => none
  | h, _ + 1, none => some h
  | h, fuel + 1, some cur =>
    match rdRun h (h.val cur) (fuel + 1) cur with
    | none => none
    | some nd =>
      if cur = nd then rdOuter h fuel (h.nxt cur)
      else rdOuter (setNext h cur (h.nxt nd)) fuel (some cur)

/-- `removeDuplicates2` from `remove_duplicates.py` at pointer level. -/
def removeDuplicates2H (h : Heap) (head : Option Nat) (fuel : Nat) :
    Option (Heap × Option Nat) :=
  match head with
  | none => some (h, none)
  | some hd =>
    match rdOuter h fuel (some hd) with
    | none => none
    | some h2 => some (h2, some hd)

/-- Outcome of the first (Floyd) loop of `detectCycle2`
(`detect_cycle.py`): the `except` branch fired (`fast.next` was absent,
so `fast.next.next` raised), the loop exited with no meeting (a pointer
became absent), or the pointers met with `slow` at the given node. -/
inductive FloydOutcome where
  | retNone : FloydOutcome
  | exitLoop : FloydOutcome
  | meet : Option Nat → FloydOutcome
deriving DecidableEq

/-- First loop of `detectCycle2`: per iteration, `fast = fast.next.next`
then `slow = slow.next`, stopping when `fast == slow` (a comparison of
references, absent included).  The heap is threaded untouched: the body
contains no assignment to any node field. -/
def floydLoop (h : Heap) : Nat → Option Nat → Option Nat → Heap × Option FloydOutcome
  | 0, _, _ => (h, none)
  | fuel + 1, some slow, some fast =>
    match h.nxt fast with
    | none => (h, some .retNone)
    | some f1 =>
      if h.nxt f1 = h.nxt slow then (h, some (.meet (h.nxt slow)))
      else floydLoop h fuel (h.nxt slow) (h.nxt f1)
  | _, _, _ => (h, some .exitLoop)

/-- Second loop of `detectCycle2`: advance `node` (from the head) and
`slow` (from the meeting point) one step each until the references
coincide; that node is returned as the cycle entry.  Advancing an absent
reference would raise in Python, modelled as `none`. -/
def entryLoop (h : Heap) : Nat → Option Nat → Option Nat → Heap × Option (Option Nat)
  | 0, _, _ => (h, none)
  | fuel + 1, node, slow =>
    if node = slow then (h, some node)
    else
      match node, slow with
      | some nd, some sl => entryLoop h fuel (h.nxt nd) (h.nxt sl)
      | _, _ => (h, none)

/-- `detectCycle2` from `detect_cycle.py` (Floyd's algorithm): result
`some none` is Python `return None` (no cycle), `some (some e)` returns
the cycle-entry node `e`. -/
def detectCycle2 (h : Heap) (head : Option Nat) (fuel : Nat) :
    Heap × Option (Option Nat) :=
  match floydLoop h fuel head head with
  | (h1, none) => (h1, none)
  | (h1, some .retNone) => (h1, some none)
  | (h1, some .exitLoop) => (h1, some none)
  | (h1, some (.meet slow)) => entryLoop h1 fuel head slow

/-- Loop of `intersect` (`intersect.py`): each pointer advances a step,
restarting at the other chain's head upon absence, until `a == b`. -/
def intersectLoop (h : Heap) (headA headB : Option Nat) :
    Nat → Option Nat → Option Nat → Heap × Option (Option Nat)
  | 0, _, _ => (h, none)
  | fuel + 1, a, b =>
    if a = b then (h, some a)
    else
      intersectLoop h headA headB fuel
        (match a with | none => headB | some x => h.nxt x)
        (match b with | none => headA | some x => h.nxt x)

/-- `intersect` from `intersect.py`. -/
def intersect (h : Heap) (headA headB : Option Nat) (fuel : Nat) :
    Heap × Option (Option Nat) :=
  intersectLoop h headA headB fuel headA headB

/-! ## Supporting lemmas -/

theorem reverseListAux_eq (l acc : List Int) :
    reverseListAux l acc = l.reverse ++ acc := by
  induction l generalizing acc with
  | nil => simp [reverseListAux]
  | cons x xs ih => simp [reverseListAux, ih]

theorem reverseList_eq_reverse (l : List Int) : reverseList l = l.reverse := by
  simp [reverseList, reverseListAux_eq]

theorem getElem?_tail (l : List Int) (k : Nat) : l.tail[k]? = l[k + 1]? := by
  cases l <;> simp

theorem middleNode2Aux_eq : ∀ (l2 l1 : List Int),
    middleNode2Aux l1 l2 = l1[l2.length / 2]?
  | [], l1 => by
    simp [middleNode2Aux, List.head?_eq_getElem?]
  | [_], l1 => by
    simp [middleNode2Aux, List.head?_eq_getElem?]
  | _ :: _ :: rest, l1 => by
    have ih := middleNode2Aux_eq rest l1.tail
    simp only [middleNode2Aux, ih, getElem?_tail, List.length_cons]
    congr 1
    omega

theorem partition2Aux_eq (value : Int) (l left right : List Int) :
    partition2Aux value l left right =
      (left ++ l.filter (fun x => decide (x < value))) ++
        (right ++ l.filter (fun x => !decide (x < value))) := by
  induction l generalizing left right with
  | nil => simp [partition2Aux]
  | cons x xs ih =>
    by_cases hx : x < value
    · simp [partition2Aux, hx, ih]
    · simp [partition2Aux, hx, ih]

/-! ## Claims -/

/-- C9: for every acyclic chain, reversing twice restores the original
value sequence (`reverseList` is an involution on value sequences). -/
theorem reverseList_involution (l : List Int) :
    reverseList (reverseList l) = l := by
  simp [reverseList_eq_reverse]

/-- C4: on every non-empty acyclic chain, `middleNode2` returns the node
at 0-based index ⌊n/2⌋ — the exact midpoint for odd length and the first
node of the second half (the (n/2+1)-th node, 1-indexed) for even length;
in particular it yields 3 on [1,2,3,4,5], 4 on [1,2,3,4,5,6], and 1 on [1]. -/
theorem middleNode2_spec (l : List Int) :
    (l ≠ [] → middleNode2 l = l[l.length / 2]?) ∧
      middleNode2 [1, 2, 3, 4, 5] = some 3 ∧
      middleNode2 [1, 2, 3, 4, 5, 6] = some 4 ∧
      middleNode2 [1] = some 1 := by
  refine ⟨fun _ => ?_, by decide, by decide, by decide⟩
  exact middleNode2Aux_eq l l

theorem middleNode2_spec_witness :
    ([1, 2, 3] : List Int) ≠ [] ∧
      middleNode2 [1, 2, 3] = ([1, 2, 3] : List Int)[(3 : Nat) / 2]? :=
  ⟨by decide, (middleNode2_spec [1, 2, 3]).1 (by decide)⟩

/-- C6: `partition2` stably partitions the chain: the output is exactly
the input nodes with value < pivot, in input order, followed by the input
nodes with value ≥ pivot, in input order; with pivot 0 on [1,2,3,4]
(every value ≥ pivot) the order is unchanged. -/
theorem partition2_spec (l : List Int) (value : Int) :
    partition2 l value =
      l.filter (fun x => decide (x < value)) ++
        l.filter (fun x => !decide (x < value)) ∧
      partition2 [1, 2, 3, 4] 0 = [1, 2, 3, 4] := by
  constructor
  · simpa using partition2Aux_eq value l [] []
  · decide

theorem reverseListKAtATime_full (k : Nat) (g r : List Int)
    (hg : g.length = k) (hk : 1 ≤ k) :
    reverseListKAtATime k (g ++ r) = g.reverse ++ reverseListKAtATime k r := by
  have hne : g ++ r ≠ [] := by
    intro hnil
    rcases List.append_eq_nil.mp hnil with ⟨h1, _⟩
    rw [h1] at hg
    simp at hg
    omega
  have hle : k ≤ (g ++ r).length := by
    rw [List.length_append, hg]
    omega
  rw [reverseListKAtATime, dif_pos ⟨hne, hle⟩]
  have hmax : max k 1 = k := by omega
  rw [hmax, ← hg, List.take_left, List.drop_left]

theorem reverseListKAtATime_leftover (k : Nat) (l : List Int)
    (hl : l.length < k) : reverseListKAtATime k l = l := by
  rw [reverseListKAtATime, dif_neg]
  intro hcond
  omega

/-- C3: `reverseListKAtATime` reverses each full run of k nodes and
splices the reversed group in front of the processing of the remainder
(relinking the group's old tail onto the next group's new head), while a
final run of fewer than k nodes is left in original order; on [1..10]
with k = 5 it yields [5,4,3,2,1,10,9,8,7,6], and with k = 3 on 10
elements the last element stays unreversed. -/
theorem reverseListKAtATime_spec (k : Nat) (g r l : List Int) :
    (g.length = k → 1 ≤ k →
      reverseListKAtATime k (g ++ r) = g.reverse ++ reverseListKAtATime k r) ∧
      (l.length < k → reverseListKAtATime k l = l) ∧
      reverseListKAtATime 5 [1, 2, 3, 4, 5, 6, 7, 8, 9, 10] =
        [5, 4, 3, 2, 1, 10, 9, 8, 7, 6] ∧
      reverseListKAtATime 3 [1, 2, 3, 4, 5, 6, 7, 8, 9, 10] =
        [3, 2, 1, 6, 5, 4, 9, 8, 7, 10] := by
  refine ⟨fun hg hk => reverseListKAtATime_full k g r hg hk,
    fun hl => reverseListKAtATime_leftover k l hl, ?_, ?_⟩
  · simp [reverseListKAtATime]
  · simp [reverseListKAtATime]

theorem reverseListKAtATime_spec_witness :
    (([1, 2] : List Int).length = 2 ∧ 1 ≤ 2 ∧
        reverseListKAtATime 2 ([1, 2] ++ [3]) =
          [1, 2].reverse ++ reverseListKAtATime 2 [3]) ∧
      (([9] : List Int).length < 2 ∧ reverseListKAtATime 2 [9] = [9]) :=
  ⟨⟨by decide, by decide,
      (reverseListKAtATime_spec 2 [1, 2] [3] [9]).1 (by decide) (by decide)⟩,
    by decide, (reverseListKAtATime_spec 2 [1, 2] [3] [9]).2.1 (by decide)⟩

theorem skipEqRun_head_ne (x : Int) (l : List Int) (y : Int)
    (hy : (skipEqRun x l).head? = some y) : y ≠ x := by
  induction l with
  | nil => simp [skipEqRun] at hy
  | cons z zs ih =>
    by_cases hz : z = x
    · rw [skipEqRun, if_pos hz] at hy
      exact ih hy
    · rw [skipEqRun, if_neg hz] at hy
      simp at hy
      rw [← hy]
      exact hz

theorem skipEqRun_of_head_ne (x : Int) (l : List Int)
    (hl : ∀ y, l.head? = some y → y ≠ x) : skipEqRun x l = l := by
  cases l with
  | nil => rfl
  | cons z zs =>
    have hz : z ≠ x := hl z (by simp)
    simp [skipEqRun, hz]

theorem removeDuplicates2_head? (l : List Int) :
    (removeDuplicates2 l).head? = l.head? := by
  cases l <;> simp [removeDuplicates2]

theorem removeDuplicates2_chain' (l : List Int) :
    List.Chain' (fun a b : Int => a ≠ b) (removeDuplicates2 l) := by
  induction l using removeDuplicates2.induct with
  | case1 => simp [removeDuplicates2]
  | case2 x xs ih =>
    rw [removeDuplicates2, List.chain'_cons']
    refine ⟨fun y hy => ?_, ih⟩
    rw [removeDuplicates2_head?] at hy
    exact (skipEqRun_head_ne x xs y hy).symm

theorem removeDuplicates2_of_chain' (l : List Int)
    (hl : List.Chain' (fun a b : Int => a ≠ b) l) :
    removeDuplicates2 l = l := by
  induction l with
  | nil => simp [removeDuplicates2]
  | cons x xs ih =>
    rw [List.chain'_cons'] at hl
    have hskip : skipEqRun x xs = xs := by
      refine skipEqRun_of_head_ne x xs fun y hy => ?_
      exact (hl.1 y hy).symm
    rw [removeDuplicates2, hskip, ih hl.2]

/-- C8: `removeDuplicates2` is idempotent on non-decreasing sorted
chains: running it on its own output changes nothing (one representative
per distinct value survives, so the output has no equal neighbours and a
second pass finds nothing to collapse). -/
theorem removeDuplicates2_idem (l : List Int)
    (hs : List.Chain' (fun a b : Int => a ≤ b) l) :
    removeDuplicates2 (removeDuplicates2 l) = removeDuplicates2 l :=
  removeDuplicates2_of_chain' _ (removeDuplicates2_chain' l)

theorem removeDuplicates2_idem_witness :
    List.Chain' (fun a b : Int => a ≤ b) [1, 1, 2, 2] ∧
      removeDuplicates2 (removeDuplicates2 [1, 1, 2, 2]) =
        removeDuplicates2 [1, 1, 2, 2] :=
  ⟨by simp [List.chain'_cons], removeDuplicates2_idem [1, 1, 2, 2] (by simp [List.chain'_cons])⟩

theorem insertNode_perm (l : List (Int × Nat)) (x : Int × Nat) :
    List.Perm (insertNode l x) (x :: l) := by
  induction l with
  | nil => simp [insertNode]
  | cons n rest ih =>
    by_cases hn : n.1 < x.1
    · rw [insertNode, if_pos hn]
      exact (ih.cons n).trans (List.Perm.swap x n rest)
    · rw [insertNode, if_neg hn]

theorem insertNode_sorted (l : List (Int × Nat)) (x : Int × Nat)
    (hl : List.Sorted (fun a b : Int × Nat => a.1 ≤ b.1) l) :
    List.Sorted (fun a b : Int × Nat => a.1 ≤ b.1) (insertNode l x) := by
  induction l with
  | nil => simp [insertNode]
  | cons n rest ih =>
    rw [List.sorted_cons] at hl
    by_cases hn : n.1 < x.1
    · rw [insertNode, if_pos hn, List.sorted_cons]
      refine ⟨fun b hb => ?_, ih hl.2⟩
      have hb2 := (insertNode_perm rest x).mem_iff.mp hb
      rcases List.mem_cons.mp hb2 with hb3 | hb3
      · rw [hb3]
        exact le_of_lt hn
      · exact hl.1 b hb3
    · rw [insertNode, if_neg hn, List.sorted_cons]
      refine ⟨fun b hb => ?_, List.sorted_cons.mpr hl⟩
      rcases List.mem_cons.mp hb with hb | hb
      · rw [hb]
        exact le_of_not_lt hn
      · exact le_trans (le_of_not_lt hn) (hl.1 b hb)

theorem insertionSortAux_perm (l acc : List (Int × Nat)) :
    List.Perm (insertionSortAux l acc) (acc ++ l) := by
  induction l generalizing acc with
  | nil => simp [insertionSortAux]
  | cons x rest ih =>
    refine (ih (insertNode acc x)).trans ?_
    refine ((insertNode_perm acc x).append_right rest).trans ?_
    exact List.perm_middle.symm

theorem insertionSortAux_sorted (l acc : List (Int × Nat))
    (hacc : List.Sorted (fun a b : Int × Nat => a.1 ≤ b.1) acc) :
    List.Sorted (fun a b : Int × Nat => a.1 ≤ b.1) (insertionSortAux l acc) := by
  induction l generalizing acc with
  | nil => exact hacc
  | cons x rest ih => exact ih _ (insertNode_sorted acc x hacc)

theorem insertNode_eq_takeWhile_dropWhile (l : List (Int × Nat)) (x : Int × Nat) :
    insertNode l x =
      l.takeWhile (fun p => decide (p.1 < x.1)) ++
        x :: l.dropWhile (fun p => decide (p.1 < x.1)) := by
  induction l with
  | nil => simp [insertNode]
  | cons n rest ih =>
    by_cases hn : n.1 < x.1
    · rw [insertNode, if_pos hn]
      simp [List.takeWhile_cons, List.dropWhile_cons, hn, ih]
    · rw [insertNode, if_neg hn]
      simp [List.takeWhile_cons, List.dropWhile_cons, hn]

/-- C1 counterexample: ties do NOT preserve insertion order.  Nodes are
(value, tag) pairs; sorting the two equal-valued nodes (1, tag 0) then
(1, tag 1) — tag 0 arriving first — should, per the claim, keep tag 0
first; the code inserts the later node at the first node with value ≥ its
own, i.e. in front, producing the reversed tie order. -/
theorem insertionSort_ties_counterexample :
    ¬ insertionSort [((1 : Int), 0), ((1 : Int), 1)] =
        [((1 : Int), 0), ((1 : Int), 1)] := by
  decide

/-- C1 (amended): `insertionSort` builds a non-decreasing sorted chain
(a permutation of the input) by repeatedly removing the input's front
node and inserting it into the output chain; the insertion point is the
first node with value greater than or EQUAL to the inserted value, so an
equal-valued node lands before all existing equal values (ties come out
in reverse insertion order). -/
theorem insertionSort_spec (l : List (Int × Nat)) (x : Int × Nat) :
    insertNode l x =
        l.takeWhile (fun p => decide (p.1 < x.1)) ++
          x :: l.dropWhile (fun p => decide (p.1 < x.1)) ∧
      List.Sorted (fun a b : Int × Nat => a.1 ≤ b.1) (insertionSort l) ∧
      List.Perm (insertionSort l) l :=
  ⟨insertNode_eq_takeWhile_dropWhile l x,
    insertionSortAux_sorted l [] (by simp),
    by simpa using insertionSortAux_perm l []⟩

theorem listLength_eq (l : List Int) : listLength l = l.length := by
  induction l with
  | nil => rfl
  | cons x xs ih => simp [listLength, ih]

theorem getMidAux_eq : ∀ (l2 l1 : List Int),
    getMidAux l1 l2 = l1.drop (l2.length / 2)
  | [], l1 => by simp [getMidAux]
  | [_], l1 => by simp [getMidAux]
  | _ :: _ :: rest, l1 => by
    have ih := getMidAux_eq rest l1.tail
    rw [getMidAux, ih, ← List.drop_one, List.drop_drop]
    congr 1
    simp only [List.length_cons]
    omega

theorem palCompare_iff : ∀ (a b : List Int),
    palCompare a b = true ↔ a.take b.length = b.take a.length
  | [], [] => by simp [palCompare]
  | [], _ :: _ => by simp [palCompare]
  | _ :: _, [] => by simp [palCompare]
  | x :: xs, y :: ys => by
    rw [palCompare, Bool.and_eq_true, beq_iff_eq, palCompare_iff xs ys]
    simp only [List.length_cons, List.take_succ_cons, List.cons.injEq]

theorem isPalidrome_eq_compare (l : List Int) :
    isPalidrome l = true ↔
      l.take (l.length / 2) = (l.drop (l.length - l.length / 2)).reverse := by
  have hmid : getMid l = l.drop (l.length / 2) := getMidAux_eq l l
  rw [isPalidrome, listLength_eq, hmid]
  have hdropd :
      (if l.length % 2 = 1 then (l.drop (l.length / 2)).tail
        else l.drop (l.length / 2)) =
        l.drop (l.length - l.length / 2) := by
    by_cases hpar : l.length % 2 = 1
    · rw [if_pos hpar, List.tail_drop]
      congr 1
      omega
    · rw [if_neg hpar]
      congr 1
      omega
  rw [hdropd, reverseList_eq_reverse, palCompare_iff]
  have hlen : ((l.drop (l.length - l.length / 2)).reverse).length = l.length / 2 := by
    simp only [List.length_reverse, List.length_drop]
    omega
  rw [hlen,
    List.take_of_length_le (le_trans (le_of_eq hlen) (Nat.div_le_self _ _))]

theorem take_half_eq_iff_palindrome (l : List Int) :
    l.take (l.length / 2) = (l.drop (l.length - l.length / 2)).reverse ↔
      l.reverse = l := by
  constructor
  · intro hx
    have hxr : (l.take (l.length / 2)).reverse =
        l.drop (l.length - l.length / 2) := by
      rw [hx, List.reverse_reverse]
    by_cases hpar : l.length - l.length / 2 = l.length / 2
    · rw [hpar] at hx hxr
      conv_lhs => rw [← List.take_append_drop (l.length / 2) l]
      rw [List.reverse_append, hxr, ← hx]
      exact List.take_append_drop _ l
    · have hm : l.length / 2 < l.length := by omega
      have hodd : l.length - l.length / 2 = l.length / 2 + 1 := by omega
      rw [hodd] at hx hxr
      have htake : l.take (l.length / 2) ++ [l[l.length / 2]] =
          l.take (l.length / 2 + 1) := by
        rw [List.take_succ, List.getElem?_eq_getElem hm]
        rfl
      conv_lhs => rw [← List.take_append_drop (l.length / 2) l]
      rw [List.reverse_append, hxr, List.drop_eq_getElem_cons hm,
        List.reverse_cons, ← hx, htake]
      exact List.take_append_drop _ l
  · intro h
    have := @List.take_reverse Int l (l.length / 2)
    rw [h] at this
    exact this

/-- C5: `isPalidrome` returns true exactly when the chain's value
sequence equals its own reverse; chains of length 0 or 1 come out true,
and the listed examples behave as stated. -/
theorem isPalidrome_spec (l : List Int) :
    (isPalidrome l = true ↔ l.reverse = l) ∧
      isPalidrome [1, 2, 3, 4, 4, 3, 2, 1] = true ∧
      isPalidrome [1, 2, 3, 2, 1] = true ∧
      isPalidrome [1, 2, 3] = false ∧
      isPalidrome [1, 2] = false ∧
      isPalidrome [1] = true ∧
      isPalidrome [1, 1] = true ∧
      isPalidrome [] = true := by
  refine ⟨?_, by decide, by decide, by decide, by decide, by decide, by decide,
    by decide⟩
  rw [isPalidrome_eq_compare]
  exact take_half_eq_iff_palindrome l

/-- C2 counterexample: `removeNthFromEnd2` on the chain [1,2,3,4,5]
(nodes 0..4) with n = 2 removes node 3 (value 4) by splicing
`prev.next = nth.next`, but never clears the removed node's `next`: after
the call node 3 still points at node 4, which lies in the surviving
chain — so the removed node's `next` is NOT set to absence. -/
theorem removal_dangling_counterexample :
    ¬ (removeNthFromEnd2 (convertArrayToList [1, 2, 3, 4, 5]).1
          (convertArrayToList [1, 2, 3, 4, 5]).2 2 10).map
        (fun p => p.1.nxt 3) = some none := by
  decide

theorem rnScan_run (N k : Nat) (v : Nat → Nat) (h : Heap)
    (hchain : ∀ j, j < N →
      h.nxt (v j) = if j + 1 < N then some (v (j + 1)) else none)
    (hk1 : 1 ≤ k) :
    ∀ (fuel t : Nat), t ≤ N → N + 1 - t ≤ fuel →
      rnScan h fuel (if t < N then some (v t) else none) (t + 1) k
          (if t ≤ k then none else some (v (t - k - 1))) (some (v (t - k))) =
        some ((if N ≤ k then none else some (v (N - k - 1))), some (v (N - k))) := by
  intro fuel
  induction fuel with
  | zero =>
    intro t ht hf
    omega
  | succ F ih =>
    intro t ht hf
    by_cases htN : t < N
    · rw [if_pos htN]
      by_cases hcond : k < t + 1
      · have hsk : ¬ t ≤ k ∨ t = k := by omega
        simp only [rnScan, if_pos hcond]
        rw [hchain t htN]
        have hnk : t - k + 1 < N := by omega
        have hsucc := hchain (t - k) (by omega)
        rw [if_pos hnk] at hsucc
        rw [hsucc]
        have hgen := ih (t + 1) (by omega) (by omega)
        rw [if_neg (show ¬ t + 1 ≤ k by omega),
          show t + 1 - k - 1 = t - k by omega,
          show t + 1 - k = t - k + 1 by omega] at hgen
        exact hgen
      · simp only [rnScan, if_neg hcond]
        rw [hchain t htN]
        have hgen := ih (t + 1) (by omega) (by omega)
        rw [if_pos (show t + 1 ≤ k by omega),
          show t + 1 - k = 0 by omega] at hgen
        rw [if_pos (show t ≤ k by omega), show t - k = 0 by omega]
        exact hgen
    · have htEq : t = N := by omega
      subst htEq
      rw [if_neg htN]
      simp only [rnScan]
theorem removeNthFromEnd2_unchanged (N k fuel : Nat) (v : Nat → Nat) (h : Heap)
    (hinj : ∀ a b, a < N → b < N → v a = v b → a = b)
    (hchain : ∀ j, j < N →
      h.nxt (v j) = if j + 1 < N then some (v (j + 1)) else none)
    (hk1 : 1 ≤ k) (hkN : k ≤ N) (hfuel : N + 1 ≤ fuel) :
    ∃ h2 hd2, removeNthFromEnd2 h (some (v 0)) k fuel = some (h2, hd2) ∧
      h2.val = h.val ∧
      h2.nxt (v (N - k)) = h.nxt (v (N - k)) ∧
      (∀ x, (k < N → x ≠ v (N - k - 1)) → h2.nxt x = h.nxt x) ∧
      (2 ≤ k → h2.nxt (v (N - k)) = some (v (N - k + 1))) := by
  have h0N : 0 < N := by omega
  have hscan := rnScan_run N k v h hchain hk1 fuel 0 (by omega) (by omega)
  rw [if_pos h0N, if_pos (Nat.zero_le k), Nat.zero_sub k,
    Nat.zero_add] at hscan
  by_cases hNk : N ≤ k
  · rw [if_pos hNk] at hscan
    refine ⟨h, h.nxt (v (N - k)), ?_, rfl, rfl, fun x _ => rfl, fun hk2 => ?_⟩
    · have hNk0 : N - k = 0 := by omega
      simp only [removeNthFromEnd2, hscan, hNk0]
    · have hNk0 : N - k = 0 := by omega
      rw [hNk0, hchain 0 h0N, if_pos (by omega)]
  · rw [if_neg hNk] at hscan
    have hlt : N - k < N := by omega
    have hlt1 : N - k - 1 < N := by omega
    have hne : v (N - k) ≠ v (N - k - 1) := by
      intro hco
      have := hinj _ _ hlt hlt1 hco
      omega
    refine ⟨setNext h (v (N - k - 1)) (h.nxt (v (N - k))), some (v 0), ?_, rfl,
      ?_, fun x hx => ?_, fun hk2 => ?_⟩
    · simp only [removeNthFromEnd2, hscan]
    · simp only [setNext, if_neg hne]
    · simp only [setNext, if_neg (hx (by omega))]
    · simp only [setNext, if_neg hne]
      rw [hchain (N - k) hlt, if_pos (by omega)]
theorem rdRun_find (N : Nat) (v : Nat → Nat) (h h' : Heap)
    (hchain : ∀ j, j < N →
      h.nxt (v j) = if j + 1 < N then some (v (j + 1)) else none)
    (hval : h'.val = h.val)
    (c : Nat) (hc : c < N)
    (hagree : ∀ j, j < N → c ≤ j → h'.nxt (v j) = h.nxt (v j)) :
    ∀ (fuel d : Nat), c ≤ d → d < N →
      (∀ j, c ≤ j → j ≤ d → h.val (v j) = h.val (v c)) →
      N - d ≤ fuel →
      ∃ e, rdRun h' (h'.val (v c)) fuel (v d) = some (v e) ∧
        d ≤ e ∧ e < N ∧
        (∀ j, c ≤ j → j ≤ e → h.val (v j) = h.val (v c)) ∧
        (N ≤ e + 1 ∨ h.val (v (e + 1)) ≠ h.val (v c)) := by
  intro fuel
  induction fuel with
  | zero =>
    intro d hcd hdN hblock hf
    omega
  | succ F ih =>
    intro d hcd hdN hblock hf
    have hnd : h'.nxt (v d) = h.nxt (v d) := hagree d hdN hcd
    rw [hchain d hdN] at hnd
    by_cases hd1 : d + 1 < N
    · rw [if_pos hd1] at hnd
      by_cases hveq : h.val (v (d + 1)) = h.val (v c)
      · obtain ⟨e, heq, he1, he2, he3, he4⟩ := ih (d + 1) (by omega) hd1
          (fun j hcj hjd => by
            rcases Nat.lt_or_ge j (d + 1) with hj | hj
            · exact hblock j hcj (by omega)
            · have : j = d + 1 := by omega
              rw [this]
              exact hveq)
          (by omega)
        refine ⟨e, ?_, by omega, he2, he3, he4⟩
        simp only [rdRun, hnd]
        rw [if_pos (by rw [hval]; exact hveq), heq]
      · refine ⟨d, ?_, le_refl d, hdN, hblock, Or.inr hveq⟩
        simp only [rdRun, hnd]
        rw [if_neg (by rw [hval]; exact hveq)]
    · rw [if_neg hd1] at hnd
      refine ⟨d, ?_, le_refl d, hdN, hblock, Or.inl (by omega)⟩
      simp only [rdRun, hnd]
theorem rdOuter_run (N : Nat) (v : Nat → Nat) (h : Heap)
    (hinj : ∀ a b, a < N → b < N → v a = v b → a = b)
    (hchain : ∀ j, j < N →
      h.nxt (v j) = if j + 1 < N then some (v (j + 1)) else none) :
    ∀ (fuel c : Nat) (h' : Heap),
      c < N →
      (c = 0 ∨ h.val (v c) ≠ h.val (v (c - 1))) →
      h'.val = h.val →
      (∀ j, j < N → c ≤ j → h'.nxt (v j) = h.nxt (v j)) →
      (∀ j, j < N → 0 < j → h.val (v j) = h.val (v (j - 1)) →
        h'.nxt (v j) = h.nxt (v j)) →
      2 * (N - c) + 1 ≤ fuel →
      ∃ h2, rdOuter h' fuel (some (v c)) = some h2 ∧ h2.val = h.val ∧
        (∀ j, j < N → 0 < j → h.val (v j) = h.val (v (j - 1)) →
          h2.nxt (v j) = h.nxt (v j)) := by
  intro fuel
  induction fuel using Nat.strong_induction_on with
  | _ fuel ih =>
  intro c h' hc hkept hval hagree hrem hf
  obtain ⟨F, rfl⟩ : ∃ F, fuel = F + 1 := ⟨fuel - 1, by omega⟩
  obtain ⟨e, hrun, hce, heN, hblock, hbreak⟩ :=
    rdRun_find N v h h' hchain hval c hc hagree (F + 1) c (le_refl c) hc
      (fun j hcj hjc => by rw [show j = c by omega]) (by omega)
  have hjcne : ∀ j, j < N → 0 < j → h.val (v j) = h.val (v (j - 1)) →
      v j ≠ v c := by
    intro j hj hj0 hveq hco
    have hjec : j = c := hinj _ _ hj hc hco
    rcases hkept with h0 | hne
    · omega
    · rw [hjec] at hveq
      exact hne hveq
  by_cases hceq : c = e
  · have hveq : v c = v e := by rw [hceq]
    simp only [rdOuter, hrun, if_pos hveq]
    have hnc : h'.nxt (v c) = h.nxt (v c) := hagree c hc (le_refl c)
    rw [hnc, hchain c hc]
    by_cases hc1 : c + 1 < N
    · rw [if_pos hc1]
      have hkept1 : c + 1 = 0 ∨ h.val (v (c + 1)) ≠ h.val (v (c + 1 - 1)) := by
        right
        have hne : h.val (v (c + 1)) ≠ h.val (v c) := by
          rcases hbreak with hb | hb
          · omega
          · rw [← hceq] at hb
            exact hb
        simpa using hne
      exact ih F (by omega) (c + 1) h' hc1 hkept1 hval
        (fun j hj hcj => hagree j hj (by omega)) hrem (by omega)
    · rw [if_neg hc1]
      obtain ⟨F2, rfl⟩ : ∃ F2, F = F2 + 1 := ⟨F - 1, by omega⟩
      exact ⟨h', by simp [rdOuter], hval, hrem⟩
  · have hvne : v c ≠ v e := fun hco => hceq (hinj _ _ hc heN hco)
    simp only [rdOuter, hrun, if_neg hvne]
    have hnev : h'.nxt (v e) = h.nxt (v e) := hagree e heN (by omega)
    obtain ⟨F2, rfl⟩ : ∃ F2, F = F2 + 1 := ⟨F - 1, by omega⟩
    have hH2val : (setNext h' (v c) (h'.nxt (v e))).val = h.val := hval
    have hH2c : (setNext h' (v c) (h'.nxt (v e))).nxt (v c) =
        if e + 1 < N then some (v (e + 1)) else none := by
      have hx : (setNext h' (v c) (h'.nxt (v e))).nxt (v c) = h'.nxt (v e) :=
        if_pos rfl
      rw [hx, hnev, hchain e heN]
    have hH2rem : ∀ j, j < N → 0 < j → h.val (v j) = h.val (v (j - 1)) →
        (setNext h' (v c) (h'.nxt (v e))).nxt (v j) = h.nxt (v j) := by
      intro j hj hj0 hveq
      simp only [setNext, if_neg (hjcne j hj hj0 hveq)]
      exact hrem j hj hj0 hveq
    by_cases he1 : e + 1 < N
    · rw [if_pos he1] at hH2c
      have hbne : h.val (v (e + 1)) ≠ h.val (v c) := by
        rcases hbreak with hb | hb
        · omega
        · exact hb
      have hcondne : ¬ (setNext h' (v c) (h'.nxt (v e))).val (v (e + 1)) =
          (setNext h' (v c) (h'.nxt (v e))).val (v c) := by
        simp only [setNext]
        rw [hval]
        exact hbne
      have hrun2 : rdRun (setNext h' (v c) (h'.nxt (v e)))
          ((setNext h' (v c) (h'.nxt (v e))).val (v c)) (F2 + 1) (v c) =
            some (v c) := by
        simp only [rdRun, hH2c, if_neg hcondne]
      simp only [rdOuter, hrun2, if_pos rfl]
      rw [hH2c]
      refine ih F2 (by omega) (e + 1) _ he1 ?_ hH2val ?_ hH2rem (by omega)
      · right
        have hee : h.val (v e) = h.val (v c) := hblock e (by omega) (le_refl e)
        simpa [hee] using hbne
      · intro j hj hej
        have hjne : v j ≠ v c := by
          intro hco
          have := hinj _ _ hj hc hco
          omega
        simp only [setNext, if_neg hjne]
        exact hagree j hj (by omega)
    · rw [if_neg he1] at hH2c
      have hrun2 : rdRun (setNext h' (v c) (h'.nxt (v e)))
          ((setNext h' (v c) (h'.nxt (v e))).val (v c)) (F2 + 1) (v c) =
            some (v c) := by
        simp only [rdRun, hH2c]
      simp only [rdOuter, hrun2, if_pos rfl]
      rw [hH2c]
      obtain ⟨F3, rfl⟩ : ∃ F3, F2 = F3 + 1 := ⟨F2 - 1, by omega⟩
      exact ⟨_, by simp [rdOuter], hH2val, hH2rem⟩
theorem removeDuplicates2H_unchanged (N fuel : Nat) (v : Nat → Nat) (h : Heap)
    (hN : 1 ≤ N)
    (hinj : ∀ a b, a < N → b < N → v a = v b → a = b)
    (hchain : ∀ j, j < N →
      h.nxt (v j) = if j + 1 < N then some (v (j + 1)) else none)
    (hfuel : 2 * N + 1 ≤ fuel) :
    ∃ h2, removeDuplicates2H h (some (v 0)) fuel = some (h2, some (v 0)) ∧
      h2.val = h.val ∧
      ∀ j, j < N → 0 < j → h.val (v j) = h.val (v (j - 1)) →
        h2.nxt (v j) = h.nxt (v j) := by
  obtain ⟨h2, hout, hval2, hrem2⟩ :=
    rdOuter_run N v h hinj hchain fuel 0 h (by omega) (Or.inl rfl) rfl
      (fun j hj _ => rfl) (fun j hj _ _ => rfl) (by omega)
  exact ⟨h2, by simp only [removeDuplicates2H, hout], hval2, hrem2⟩
/-- C2 (amended): on every acyclic chain, the explicit removal
operations splice the removed node out by redirecting only its
predecessor's `next`; the removed node's own `next` field is left
unchanged.  For `removeNthFromEnd2` on a chain of N nodes with
1 ≤ n ≤ N, the removed node `v (N - n)` keeps its old `next` — for n ≥ 2
still `some (v (N - n + 1))`, a node of the surviving chain (a dangling
reference), never absence — and no node other than the predecessor
`v (N - n - 1)` is written.  For `removeDuplicates2`, every removed node
(a node whose value equals its predecessor's) keeps its `next` field
unchanged, still pointing into the surviving chain. -/
theorem removal_dangling_spec :
    (∀ (N k fuel : Nat) (v : Nat → Nat) (h : Heap),
        (∀ a b, a < N → b < N → v a = v b → a = b) →
        (∀ j, j < N →
          h.nxt (v j) = if j + 1 < N then some (v (j + 1)) else none) →
        1 ≤ k → k ≤ N → N + 1 ≤ fuel →
        ∃ h2 hd2, removeNthFromEnd2 h (some (v 0)) k fuel = some (h2, hd2) ∧
          h2.val = h.val ∧
          h2.nxt (v (N - k)) = h.nxt (v (N - k)) ∧
          (∀ x, (k < N → x ≠ v (N - k - 1)) → h2.nxt x = h.nxt x) ∧
          (2 ≤ k → h2.nxt (v (N - k)) = some (v (N - k + 1)))) ∧
      (∀ (N fuel : Nat) (v : Nat → Nat) (h : Heap),
        1 ≤ N →
        (∀ a b, a < N → b < N → v a = v b → a = b) →
        (∀ j, j < N →
          h.nxt (v j) = if j + 1 < N then some (v (j + 1)) else none) →
        2 * N + 1 ≤ fuel →
        ∃ h2, removeDuplicates2H h (some (v 0)) fuel = some (h2, some (v 0)) ∧
          h2.val = h.val ∧
          ∀ j, j < N → 0 < j → h.val (v j) = h.val (v (j - 1)) →
            h2.nxt (v j) = h.nxt (v j)) :=
  ⟨fun N k fuel v h hinj hchain hk1 hkN hfuel =>
      removeNthFromEnd2_unchanged N k fuel v h hinj hchain hk1 hkN hfuel,
    fun N fuel v h hN hinj hchain hfuel =>
      removeDuplicates2H_unchanged N fuel v h hN hinj hchain hfuel⟩

theorem removal_dangling_spec_witness :
    (∃ h2 hd2,
        removeNthFromEnd2 (convertArrayToList [1, 2, 3, 4, 5]).1 (some 0) 2 10 =
            some (h2, hd2) ∧
          h2.val = (convertArrayToList [1, 2, 3, 4, 5]).1.val ∧
          h2.nxt 3 = (convertArrayToList [1, 2, 3, 4, 5]).1.nxt 3 ∧
          (∀ x, (2 < 5 → x ≠ 2) →
            h2.nxt x = (convertArrayToList [1, 2, 3, 4, 5]).1.nxt x) ∧
          (2 ≤ 2 → h2.nxt 3 = some 4)) ∧
      (∃ h2,
        removeDuplicates2H (convertArrayToList [1, 1, 2]).1 (some 0) 7 =
            some (h2, some 0) ∧
          h2.val = (convertArrayToList [1, 1, 2]).1.val ∧
          ∀ j, j < 3 → 0 < j →
            (convertArrayToList [1, 1, 2]).1.val j =
              (convertArrayToList [1, 1, 2]).1.val (j - 1) →
            h2.nxt j = (convertArrayToList [1, 1, 2]).1.nxt j) :=
  ⟨removal_dangling_spec.1 5 2 10 id (convertArrayToList [1, 2, 3, 4, 5]).1
      (fun a b _ _ hab => hab) (by decide) (by decide) (by decide) (by decide),
    removal_dangling_spec.2 3 7 id (convertArrayToList [1, 1, 2]).1
      (by decide) (fun a b _ _ hab => hab) (by decide) (by decide)⟩

theorem floydLoop_fst (h : Heap) :
    ∀ (fuel : Nat) (s f : Option Nat), (floydLoop h fuel s f).1 = h
  | 0, _, _ => rfl
  | _ + 1, none, _ => rfl
  | _ + 1, some _, none => rfl
  | fuel + 1, some s, some f => by
    rw [floydLoop]
    cases hnf : h.nxt f with
    | none => rfl
    | some f1 =>
      by_cases heq : h.nxt f1 = h.nxt s
      · simp [heq]
      · simp [heq, floydLoop_fst h fuel]

theorem entryLoop_fst (h : Heap) :
    ∀ (fuel : Nat) (node slow : Option Nat), (entryLoop h fuel node slow).1 = h
  | 0, _, _ => rfl
  | fuel + 1, node, slow => by
    by_cases heq : node = slow
    · simp [entryLoop, heq]
    · cases node with
      | none => simp [entryLoop, heq]
      | some nd =>
        cases slow with
        | none => simp [entryLoop, heq]
        | some sl => simp [entryLoop, heq, entryLoop_fst h fuel]

theorem intersectLoop_fst (h : Heap) (headA headB : Option Nat) :
    ∀ (fuel : Nat) (a b : Option Nat),
      (intersectLoop h headA headB fuel a b).1 = h
  | 0, _, _ => rfl
  | fuel + 1, a, b => by
    by_cases heq : a = b
    · simp [intersectLoop, heq]
    · simp [intersectLoop, heq, intersectLoop_fst h headA headB fuel]

/-- C10: the cycle-tolerant algorithms `detectCycle2` and `intersect`
never mutate the heap: for every input heap (cyclic chains included),
any head references and any fuel, the heap after the call is exactly the
heap before it (every node's value and next reference unchanged). -/
theorem readonly_spec (h : Heap) (head headA headB : Option Nat) (fuel : Nat) :
    (detectCycle2 h head fuel).1 = h ∧ (intersect h headA headB fuel).1 = h := by
  constructor
  · rw [detectCycle2]
    rcases hfl : floydLoop h fuel head head with ⟨h1, r⟩
    have h1h : h1 = h := by
      have := floydLoop_fst h fuel head head
      rw [hfl] at this
      exact this
    cases r with
    | none => simpa using h1h
    | some out =>
      cases out with
      | retNone => simpa using h1h
      | exitLoop => simpa using h1h
      | meet slow =>
        simp only
        rw [entryLoop_fst, h1h]
  · rw [intersect, intersectLoop_fst]

/-! ## Cycle detection: positions along a rho-shaped chain

A chain of `n` nodes whose tail points back at index `i` is described by
its successor function on positions: from `j` go to `j + 1`, and from the
last position back to `i`.  `cycPos t` is the position reached after `t`
steps from the head. -/

def cycStep (n i j : Nat) : Nat :=
  if j + 1 < n then j + 1 else i

def cycPos (n i : Nat) : Nat → Nat
  | 0 => 0
  | t + 1 => cycStep n i (cycPos n i t)

theorem cycPos_lt (n i : Nat) (hi : i < n) : ∀ t, cycPos n i t < n := by
  intro t
  induction t with
  | zero => exact Nat.lt_of_le_of_lt (Nat.zero_le i) hi
  | succ t ih =>
    rw [cycPos, cycStep]
    by_cases hb : cycPos n i t + 1 < n
    · rw [if_pos hb]
      exact hb
    · rw [if_neg hb]
      exact hi

theorem cycPos_small (n i : Nat) : ∀ t, t < n → cycPos n i t = t := by
  intro t
  induction t with
  | zero => intro _; rfl
  | succ t ih =>
    intro ht
    rw [cycPos, ih (by omega), cycStep, if_pos ht]

theorem cycPos_wrap (n i : Nat) (hi : i < n) :
    ∀ d, cycPos n i (i + d) = i + d % (n - i) := by
  intro d
  induction d with
  | zero =>
    simp only [Nat.add_zero, Nat.zero_mod]
    exact cycPos_small n i i hi
  | succ d ih =>
    have hm : 0 < n - i := by omega
    have hr : d % (n - i) < n - i := Nat.mod_lt d hm
    rw [show i + (d + 1) = (i + d) + 1 by omega, cycPos, ih, cycStep]
    by_cases hb : i + d % (n - i) + 1 < n
    · rw [if_pos hb]
      have hmod : (d + 1) % (n - i) = d % (n - i) + 1 := by
        rw [← Nat.mod_add_mod]
        exact Nat.mod_eq_of_lt (by omega)
      omega
    · rw [if_neg hb]
      have hrm : d % (n - i) + 1 = n - i := by omega
      have hmod : (d + 1) % (n - i) = 0 := by
        rw [← Nat.mod_add_mod, hrm]
        exact Nat.mod_self _
      omega

theorem cycPos_ge (n i : Nat) (hi : i < n) (t : Nat) (ht : i ≤ t) :
    cycPos n i t = i + (t - i) % (n - i) := by
  have := cycPos_wrap n i hi (t - i)
  rwa [Nat.add_sub_cancel' ht] at this

theorem cycMeet_exists (n i : Nat) (hi : i < n) :
    1 ≤ (n - i) * (i + 1) ∧
      cycPos n i ((n - i) * (i + 1)) = cycPos n i (2 * ((n - i) * (i + 1))) := by
  set K := (n - i) * (i + 1) with hK
  have hm : 0 < n - i := by omega
  have hK1 : 1 ≤ K := Nat.mul_pos hm (by omega)
  have hKi : i ≤ K := by
    calc i ≤ i + 1 := by omega
      _ ≤ (n - i) * (i + 1) := Nat.le_mul_of_pos_left _ hm
  refine ⟨hK1, ?_⟩
  rw [cycPos_ge n i hi K hKi, cycPos_ge n i hi (2 * K) (by omega)]
  have h2K : 2 * K - i = (K - i) + (n - i) * (i + 1) := by omega
  rw [h2K, Nat.add_mul_mod_self_left]

theorem cycMeet_props (n i : Nat) (hi : i < n) (k : Nat) (hk1 : 1 ≤ k)
    (hmeet : cycPos n i k = cycPos n i (2 * k)) :
    i ≤ k ∧ (n - i) ∣ k := by
  have hik : i ≤ k := by
    by_contra hik
    push_neg at hik
    have hkpos : cycPos n i k = k := cycPos_small n i k (by omega)
    by_cases h2k : 2 * k < i
    · have : cycPos n i (2 * k) = 2 * k := cycPos_small n i (2 * k) (by omega)
      omega
    · have : cycPos n i (2 * k) = i + (2 * k - i) % (n - i) :=
        cycPos_ge n i hi (2 * k) (by omega)
      omega
  refine ⟨hik, ?_⟩
  rw [cycPos_ge n i hi k hik, cycPos_ge n i hi (2 * k) (by omega)] at hmeet
  have hmod : (k - i) % (n - i) = (2 * k - i) % (n - i) := by omega
  have h2k : 2 * k - i = (k - i) + k := by omega
  rw [h2k] at hmod
  have hme : (k - i) + k ≡ (k - i) + 0 [MOD n - i] := by
    rw [Nat.add_zero]
    exact (Nat.ModEq.refl _).trans hmod.symm
  have := Nat.ModEq.add_left_cancel' (k - i) hme
  exact (Nat.modEq_zero_iff_dvd).mp this

theorem cycEntry_eq (n i : Nat) (hi : i < n) (k : Nat) (hik : i ≤ k)
    (hdvd : (n - i) ∣ k) : cycPos n i (k + i) = i := by
  rw [cycPos_ge n i hi (k + i) (by omega)]
  have : (k + i - i) % (n - i) = 0 := by
    rw [Nat.add_sub_cancel]
    exact Nat.mod_eq_zero_of_dvd hdvd
  omega

/-- On an acyclic chain (positions `v 0 … v (n-1)`, tail to absence) the
Floyd loop always ends in `retNone` (the `except` branch) or `exitLoop`
(a pointer reached absence): with slow at position `c` and fast at `2c`,
the pointers can never meet. -/
theorem floydAcyclic (n : Nat) (v : Nat → Nat) (h : Heap)
    (hinj : ∀ j k, j < n → k < n → v j = v k → j = k)
    (hchain : ∀ j, j < n →
      h.nxt (v j) = if j + 1 < n then some (v (j + 1)) else none) :
    ∀ (fuel c : Nat), 2 * c < n → n ≤ 2 * c + fuel →
      (floydLoop h fuel (some (v c)) (some (v (2 * c)))).2 =
          some FloydOutcome.retNone ∨
        (floydLoop h fuel (some (v c)) (some (v (2 * c)))).2 =
          some FloydOutcome.exitLoop := by
  intro fuel
  induction fuel with
  | zero =>
    intro c hc hf
    omega
  | succ F ih =>
    intro c hc hf
    have hfast := hchain (2 * c) hc
    by_cases h1 : 2 * c + 1 < n
    · rw [if_pos h1] at hfast
      have hc1 : c + 1 < n := by omega
      have hslow := hchain c (by omega)
      rw [if_pos hc1] at hslow
      have hf1 := hchain (2 * c + 1) h1
      by_cases h2 : 2 * c + 1 + 1 < n
      · rw [if_pos h2] at hf1
        have hne : h.nxt (v (2 * c + 1)) ≠ h.nxt (v c) := by
          rw [hf1, hslow]
          intro hco
          have := hinj _ _ h2 hc1 (Option.some.inj hco)
          omega
        have hrec := ih (c + 1) (by omega) (by omega)
        simp only [floydLoop, hfast, if_neg hne]
        rw [hslow, hf1]
        rw [show 2 * c + 1 + 1 = 2 * (c + 1) by ring]
        exact hrec
      · rw [if_neg h2] at hf1
        have hne : h.nxt (v (2 * c + 1)) ≠ h.nxt (v c) := by
          rw [hf1, hslow]
          exact fun hco => Option.noConfusion hco
        simp only [floydLoop, hfast, if_neg hne]
        rw [hslow, hf1]
        right
        cases F with
        | zero => omega
        | succ F2 => simp [floydLoop]
    · rw [if_neg h1] at hfast
      left
      simp only [floydLoop, hfast]

theorem floydCyclic (n i : Nat) (v : Nat → Nat) (h : Heap) (hi : i < n)
    (hinj : ∀ j k, j < n → k < n → v j = v k → j = k)
    (hchain : ∀ j, j < n → h.nxt (v j) = some (v (cycStep n i j)))
    (k0 : Nat) (hk1 : 1 ≤ k0)
    (hmeet : cycPos n i k0 = cycPos n i (2 * k0))
    (hmin : ∀ j, 1 ≤ j → j < k0 → cycPos n i j ≠ cycPos n i (2 * j)) :
    ∀ (fuel c : Nat), c < k0 → k0 ≤ c + fuel →
      floydLoop h fuel (some (v (cycPos n i c))) (some (v (cycPos n i (2 * c)))) =
        (h, some (FloydOutcome.meet (some (v (cycPos n i k0))))) := by
  have hstep : ∀ t, cycStep n i (cycPos n i t) = cycPos n i (t + 1) := fun t => rfl
  intro fuel
  induction fuel with
  | zero =>
    intro c hc hf
    omega
  | succ F ih =>
    intro c hc hf
    have hfast := hchain (cycPos n i (2 * c)) (cycPos_lt n i hi _)
    rw [hstep] at hfast
    have hf1 := hchain (cycPos n i (2 * c + 1)) (cycPos_lt n i hi _)
    rw [hstep] at hf1
    have hslow := hchain (cycPos n i c) (cycPos_lt n i hi _)
    rw [hstep] at hslow
    by_cases hmeq : cycPos n i (2 * c + 1 + 1) = cycPos n i (c + 1)
    · have hP : cycPos n i (c + 1) = cycPos n i (2 * (c + 1)) := by
        rw [show 2 * (c + 1) = 2 * c + 1 + 1 by ring]
        exact hmeq.symm
      have hk0e : k0 = c + 1 := by
        by_contra hno
        exact hmin (c + 1) (by omega) (by omega) hP
      have hcond : h.nxt (v (cycPos n i (2 * c + 1))) = h.nxt (v (cycPos n i c)) := by
        rw [hf1, hslow, hmeq]
      simp only [floydLoop, hfast, if_pos hcond]
      rw [hslow, hk0e]
    · have hcond : h.nxt (v (cycPos n i (2 * c + 1))) ≠ h.nxt (v (cycPos n i c)) := by
        rw [hf1, hslow]
        intro hco
        exact hmeq (hinj _ _ (cycPos_lt n i hi _) (cycPos_lt n i hi _)
          (Option.some.inj hco))
      have hc1lt : c + 1 < k0 := by
        rcases Nat.lt_or_ge (c + 1) k0 with hlt | hge
        · exact hlt
        · have hke : k0 = c + 1 := by omega
          rw [hke, show 2 * (c + 1) = 2 * c + 1 + 1 by ring] at hmeet
          exact absurd hmeet.symm hmeq
      simp only [floydLoop, hfast, if_neg hcond]
      rw [hslow, hf1, show 2 * c + 1 + 1 = 2 * (c + 1) by ring]
      exact ih (c + 1) hc1lt (by omega)

theorem entryCyclic (n i : Nat) (v : Nat → Nat) (h : Heap) (hi : i < n)
    (hinj : ∀ j k, j < n → k < n → v j = v k → j = k)
    (hchain : ∀ j, j < n → h.nxt (v j) = some (v (cycStep n i j)))
    (k0 : Nat) (hik : i ≤ k0) (hdvd : (n - i) ∣ k0) :
    ∀ (fuel j : Nat), j ≤ i → i - j < fuel →
      entryLoop h fuel (some (v (cycPos n i j))) (some (v (cycPos n i (k0 + j)))) =
        (h, some (some (v i))) := by
  have hstep : ∀ t, cycStep n i (cycPos n i t) = cycPos n i (t + 1) := fun t => rfl
  intro fuel
  induction fuel with
  | zero =>
    intro j hj hf
    omega
  | succ F ih =>
    intro j hj hf
    by_cases hje : j = i
    · have h1 : cycPos n i j = i := by
        rw [hje]
        exact cycPos_small n i i hi
      have h2 : cycPos n i (k0 + j) = i := by
        rw [hje]
        exact cycEntry_eq n i hi k0 hik hdvd
      have hcond : (some (v (cycPos n i j)) : Option Nat) =
          some (v (cycPos n i (k0 + j))) := by
        rw [h1, h2]
      simp only [entryLoop, if_pos hcond]
      rw [h1]
    · have hjlt : j < i := by omega
      have h1 : cycPos n i j = j := cycPos_small n i j (by omega)
      have h2 : cycPos n i (k0 + j) = i + (k0 + j - i) % (n - i) :=
        cycPos_ge n i hi _ (by omega)
      have hcond : (some (v (cycPos n i j)) : Option Nat) ≠
          some (v (cycPos n i (k0 + j))) := by
        intro hco
        have := hinj _ _ (cycPos_lt n i hi j) (cycPos_lt n i hi (k0 + j))
          (Option.some.inj hco)
        omega
      simp only [entryLoop, if_neg hcond]
      rw [hchain _ (cycPos_lt n i hi j), hchain _ (cycPos_lt n i hi (k0 + j)),
        hstep, hstep, show k0 + j + 1 = k0 + (j + 1) by ring]
      exact ih (j + 1) (by omega) (by omega)
theorem detectCycle2_acyclic (n fuel : Nat) (v : Nat → Nat) (h : Heap)
    (hinj : ∀ j k, j < n → k < n → v j = v k → j = k)
    (hchain : ∀ j, j < n →
      h.nxt (v j) = if j + 1 < n then some (v (j + 1)) else none)
    (hfuel : n + 2 ≤ fuel) :
    (detectCycle2 h (if n = 0 then none else some (v 0)) fuel).2 = some none := by
  by_cases hn : n = 0
  · rw [if_pos hn]
    obtain ⟨F, rfl⟩ : ∃ F, fuel = F + 1 := ⟨fuel - 1, by omega⟩
    simp [detectCycle2, floydLoop]
  · rw [if_neg hn]
    have hrun := floydAcyclic n v h hinj hchain fuel 0 (by omega) (by omega)
    rw [show 2 * 0 = 0 by ring] at hrun
    rcases hfl : floydLoop h fuel (some (v 0)) (some (v 0)) with ⟨h1, r⟩
    rw [hfl] at hrun
    simp only at hrun
    rcases hrun with hr | hr <;>
      simp only [detectCycle2, hfl, hr]
theorem detectCycle2_cyclic (n i fuel : Nat) (v : Nat → Nat) (h : Heap)
    (hi : i < n)
    (hinj : ∀ j k, j < n → k < n → v j = v k → j = k)
    (hchain : ∀ j, j < n →
      h.nxt (v j) = some (v (if j + 1 < n then j + 1 else i)))
    (hfuel : n * n + 1 ≤ fuel) :
    (detectCycle2 h (some (v 0)) fuel).2 = some (some (v i)) := by
  have hchain2 : ∀ j, j < n → h.nxt (v j) = some (v (cycStep n i j)) := hchain
  have hex : ∃ k, 1 ≤ k ∧ cycPos n i k = cycPos n i (2 * k) :=
    ⟨(n - i) * (i + 1), cycMeet_exists n i hi⟩
  have hPfind := Nat.find_spec hex
  have hmin : ∀ j, 1 ≤ j → j < Nat.find hex →
      cycPos n i j ≠ cycPos n i (2 * j) :=
    fun j h1 hlt hne => Nat.find_min hex hlt ⟨h1, hne⟩
  have hk0le : Nat.find hex ≤ (n - i) * (i + 1) :=
    Nat.find_min' hex (cycMeet_exists n i hi)
  have hbound : Nat.find hex ≤ n * n :=
    le_trans hk0le (Nat.mul_le_mul (by omega) (by omega))
  have hprops := cycMeet_props n i hi (Nat.find hex) hPfind.1 hPfind.2
  have hrun := floydCyclic n i v h hi hinj hchain2 (Nat.find hex) hPfind.1
    hPfind.2 hmin fuel 0 (by omega) (by omega)
  rw [show 2 * 0 = 0 by ring, show cycPos n i 0 = 0 from rfl] at hrun
  have hentry := entryCyclic n i v h hi hinj hchain2 (Nat.find hex)
    hprops.1 hprops.2 fuel 0 (by omega) (by omega)
  rw [show cycPos n i 0 = 0 from rfl, Nat.add_zero] at hentry
  simp only [detectCycle2, hrun, hentry]
/-- C7: `detectCycle2` returns absence on every acyclic chain (the fast
or slow pointer reaches the chain end — or the `fast.next.next` access
raises — before any meeting), and on every chain of `n` nodes whose
tail's next points back at the node at index `i` it terminates (within
fuel `n² + 1`) and returns exactly the node at index `i`, the cycle
entry.  Chains are given by an injective labelling `v` of positions to
node identities and the corresponding successor structure on the heap. -/
theorem detectCycle2_spec :
    (∀ (n fuel : Nat) (v : Nat → Nat) (h : Heap),
        (∀ j k, j < n → k < n → v j = v k → j = k) →
        (∀ j, j < n →
          h.nxt (v j) = if j + 1 < n then some (v (j + 1)) else none) →
        n + 2 ≤ fuel →
        (detectCycle2 h (if n = 0 then none else some (v 0)) fuel).2 =
          some none) ∧
      (∀ (n i fuel : Nat) (v : Nat → Nat) (h : Heap),
        i < n →
        (∀ j k, j < n → k < n → v j = v k → j = k) →
        (∀ j, j < n →
          h.nxt (v j) = some (v (if j + 1 < n then j + 1 else i))) →
        n * n + 1 ≤ fuel →
        (detectCycle2 h (some (v 0)) fuel).2 = some (some (v i))) :=
  ⟨fun n fuel v h hinj hchain hfuel =>
      detectCycle2_acyclic n fuel v h hinj hchain hfuel,
    fun n i fuel v h hi hinj hchain hfuel =>
      detectCycle2_cyclic n i fuel v h hi hinj hchain hfuel⟩

theorem detectCycle2_spec_witness :
    (detectCycle2 ⟨fun _ => 0, fun j => if j + 1 < 3 then some (j + 1) else none⟩
        (if (3 : Nat) = 0 then none else some 0) 20).2 = some none ∧
      (detectCycle2 ⟨fun _ => 0, fun j => some (if j + 1 < 3 then j + 1 else 1)⟩
        (some 0) 20).2 = some (some 1) :=
  ⟨detectCycle2_spec.1 3 20 id _ (fun j k hj hk he => he) (by decide) (by decide),
    detectCycle2_spec.2 3 1 20 id _ (by decide) (fun j k hj hk he => he) (by decide)
      (by decide)⟩

end LL
